import Mathlib

/-!
Verification of the `utils` module of the fast-paillier library.

The module is embedded shallowly over `ℤ` (rug arbitrary-precision integers
are mathematical integers).  Conventions used throughout:

* rug's `%` operator is truncated remainder (sign of the dividend); it is
  embedded as `Int.tmod`.  It panics when the divisor is zero, which is made
  explicit where it can happen (`CrtExp.build`).
* rug's `modulo` method is Euclidean remainder (result in `[0, |m|)`); it is
  embedded as Lean's `%` on `ℤ` (`Int.emod`).
* the engine primitives `pow_mod` and `invert` (GMP `mpz_powm` and
  `mpz_invert`) are external to the repository; they are embedded from their
  documented contracts: `pow_mod` returns the canonical residue of `x^e` for
  a non-negative exponent and fails (`none`) for a negative non-invertible
  base or a zero modulus, `invert` returns the unique representative of the
  modular inverse in `[0, |m|)` when it exists.
* fallible operations return `Option`; `none` stands for the panic of an
  `expect` call where the surrounding code panics.
-/

namespace FastPaillier

/-- Modelled from the documented contract of the engine primitive
`mpz_invert`: the unique inverse of `a` modulo `m` in `[0, |m|)` when
`gcd(a, m) = 1` and `m ≠ 0`, and `none` otherwise.  Implemented as a search
so that it is executable by the kernel. -/
def invert (a m : ℤ) : Option ℤ :=
  if m = 0 then none
  else ((List.range m.natAbs).find?
      (fun y : ℕ => a * (y : ℤ) % m == 1 % m)).map (fun y : ℕ => (y : ℤ))

/-- Modelled from the documented contract of the engine primitive
`mpz_powm` (rug `pow_mod`): canonical residue of `x^e` modulo `m`; for a
negative exponent the base must be invertible; a zero modulus is an error. -/
def pow_mod (x e m : ℤ) : Option ℤ :=
  if m = 0 then none
  else if 0 ≤ e then some (x ^ e.toNat % m)
  else (invert x m).map (fun y => y ^ (-e).toNat % m)

/-- Embedding of `in_mult_group_abs` from `utils.rs`: `gcd(|x|, |n|) == 1`. -/
def in_mult_group_abs (x n : ℤ) : Bool :=
  Int.gcd x n == 1

/-- Embedding of `in_mult_group` from `utils.rs`: the sign check
`x.cmp0().is_ge()` and then the gcd check. -/
def in_mult_group (x n : ℤ) : Bool :=
  decide (0 ≤ x) && in_mult_group_abs x n

/-- Embedding of `sample_in_mult_group` from `utils.rs`.  The unbounded
rejection loop is made step-indexed by `fuel`; `draws i` is the `i`-th value
produced by the engine primitive `random_below`. -/
def sample_in_mult_group (draws : ℕ → ℤ) (n : ℤ) : ℕ → Option ℤ
  | 0 => none
  | fuel + 1 =>
    if in_mult_group (draws 0) n then some (draws 0)
    else sample_in_mult_group (fun i => draws (i + 1)) n fuel

/-- One trial of the loop body of `sieve_generate_safe_primes` from
`utils.rs`.  `draw` is the value produced by the engine primitive
`random_bits (bits - 1)` (so `draw < 2^(bits-1)`); the candidate gets bit
`bits - 2` and bit `0` forced, is sieved against the first `amount` entries
of the small-prime table, and both `q` and `p = 2q + 1` are submitted to the
probabilistic primality test `pt` with 25 rounds.  `pt r n = true` stands
for `n.is_probably_prime(r)` returning `Yes` or `Probably`. -/
def safe_prime_trial (table : List ℕ) (pt : ℕ → ℕ → Bool) (bits amount : ℕ)
    (draw : ℕ) : Option ℕ :=
  let x := draw ||| 2 ^ (bits - 2) ||| 1
  if (table.take amount).any (fun s => x % s == (s - 1) / 2) then none
  else if pt 25 x then
    if pt 25 (2 * x + 1) then some (2 * x + 1) else none
  else none

/-- The retry loop of `sieve_generate_safe_primes`, step-indexed by `fuel`;
`draws i` is the `i`-th value produced by `random_bits`. -/
def sieve_loop (table : List ℕ) (pt : ℕ → ℕ → Bool) (bits amount : ℕ) :
    (ℕ → ℕ) → ℕ → Option ℕ
  | _, 0 => none
  | draws, fuel + 1 =>
    match safe_prime_trial table pt bits amount (draws 0) with
    | some p => some p
    | none => sieve_loop table pt bits amount (fun i => draws (i + 1)) fuel

/-- Embedding of `sieve_generate_safe_primes` from `utils.rs`.  The
small-prime table `SMALL_PRIMES` lives in a repository file that is not part
of the sources, so it is passed as the parameter `table`; the claims proved
below hold for every table.  The `amount` is clamped to the table size
(`amount.min(SMALL_PRIMES.len())` in the source). -/
def sieve_generate_safe_primes (table : List ℕ) (pt : ℕ → ℕ → Bool)
    (draws : ℕ → ℕ) (bits amount fuel : ℕ) : Option ℕ :=
  sieve_loop table pt bits (min amount table.length) draws fuel

/-- Embedding of `generate_safe_prime` from `utils.rs`: fixed sieve
parameter 135. -/
def generate_safe_prime (table : List ℕ) (pt : ℕ → ℕ → Bool)
    (draws : ℕ → ℕ) (bits fuel : ℕ) : Option ℕ :=
  sieve_generate_safe_primes table pt draws bits 135 fuel

/-- Embedding of the `NaiveExp` context from `utils.rs`. -/
structure NaiveExp where
  nn : ℤ
  e : ℤ
  deriving DecidableEq

/-- Embedding of `NaiveExp::build`. -/
def NaiveExp.build (e p q : ℤ) : Option NaiveExp :=
  if e < 0 ∨ p ≤ 0 ∨ q ≤ 0 then none
  else some { nn := (p * q) ^ 2, e := e }

/-- Embedding of `NaiveExp::exp`; `none` is the panic of the `expect` on the
engine's `pow_mod_ref`. -/
def NaiveExp.exp (s : NaiveExp) (x : ℤ) : Option ℤ :=
  pow_mod x s.e s.nn

/-- Embedding of the `CrtExp` context from `utils.rs`. -/
structure CrtExp where
  pp : ℤ
  qq : ℤ
  e_mod_phi_pp : ℤ
  e_mod_phi_qq : ℤ
  beta : ℤ
  deriving DecidableEq

/-- Result of `CrtExp::build`: `crash` models a Rust panic (rug's `%`
panics when its divisor is zero), `none` the `None` return. -/
inductive BuildRes (α : Type) where
  | crash : BuildRes α
  | none : BuildRes α
  | some : α → BuildRes α
  deriving DecidableEq

/-- Embedding of `CrtExp::build`.  The source computes
`e % (p² - p)` and `e % (q² - q)` with rug's truncated `%`, which panics on
a zero divisor; both remainders are computed before `invert` is consulted,
so the zero-divisor check comes before the `invert` match. -/
def CrtExp.build (e p q : ℤ) : BuildRes CrtExp :=
  if e < 0 ∨ p ≤ 0 ∨ q ≤ 0 then BuildRes.none
  else if p ^ 2 - p = 0 ∨ q ^ 2 - q = 0 then BuildRes.crash
  else
    match invert (p ^ 2) (q ^ 2) with
    | Option.some b =>
      BuildRes.some
        { pp := p ^ 2, qq := q ^ 2
          e_mod_phi_pp := Int.tmod e (p ^ 2 - p)
          e_mod_phi_qq := Int.tmod e (q ^ 2 - q), beta := b }
    | Option.none => BuildRes.none

/-- Embedding of `CrtExp::exp`: reduce `x` with rug's truncated `%`,
exponentiate by the reduced exponents, recombine with
`((r2 - r1) * beta).modulo(qq) * pp + r1` where `modulo` is the Euclidean
remainder.  `none` is the panic of either `expect`. -/
def CrtExp.exp (s : CrtExp) (x : ℤ) : Option ℤ :=
  match pow_mod (Int.tmod x s.pp) s.e_mod_phi_pp s.pp,
      pow_mod (Int.tmod x s.qq) s.e_mod_phi_qq s.qq with
  | Option.some r1, Option.some r2 =>
    Option.some ((r2 - r1) * s.beta % s.qq * s.pp + r1)
  | _, _ => Option.none

/-- Composition of `NaiveExp::build` and `NaiveExp::exp` on the same
arguments. -/
def naive_build_exp (e p q x : ℤ) : Option ℤ :=
  (NaiveExp.build e p q).bind (fun s => s.exp x)

/-- Composition of `CrtExp::build` and `CrtExp::exp` on the same
arguments (`none` when the build fails or crashes or `exp` panics). -/
def crt_build_exp (e p q x : ℤ) : Option ℤ :=
  match CrtExp.build e p q with
  | BuildRes.some s => s.exp x
  | _ => Option.none

/-- Modelled from the spec: the direct definition of `x^e mod (p·q)²`
(canonical residue), against which both implementations are compared. -/
def direct_exp (x e n : ℤ) : ℤ :=
  x ^ e.toNat % n ^ 2

/-- Helper: a successful `invert` returns a canonical modular inverse. -/
theorem invert_some_spec {a m y : ℤ} (h : invert a m = some y) :
    m ≠ 0 ∧ 0 ≤ y ∧ y < |m| ∧ a * y % m = 1 % m := by
  by_cases hm : m = 0
  · simp [invert, hm] at h
  · unfold invert at h
    rw [if_neg hm] at h
    obtain ⟨z, hz, rfl⟩ := Option.map_eq_some'.mp h
    refine ⟨hm, Int.natCast_nonneg z, ?_, ?_⟩
    · have hz2 := List.mem_range.mp (List.mem_of_find?_eq_some hz)
      rw [Int.abs_eq_natAbs]
      exact_mod_cast hz2
    · simpa [beq_iff_eq] using List.find?_some hz

/-- Helper: a successful `invert` implies coprimality. -/
theorem invert_some_gcd {a m y : ℤ} (h : invert a m = some y) :
    Int.gcd a m = 1 := by
  obtain ⟨hm, h0, hlt, hmod⟩ := invert_some_spec h
  have hdvd : m ∣ 1 - a * y := Int.modEq_iff_dvd.mp hmod
  have hg1 : (Int.gcd a m : ℤ) ∣ 1 := by
    have h2 : (Int.gcd a m : ℤ) ∣ 1 - a * y :=
      dvd_trans Int.gcd_dvd_right hdvd
    have h3 : (Int.gcd a m : ℤ) ∣ a * y :=
      Dvd.dvd.mul_right Int.gcd_dvd_left y
    simpa using dvd_add h2 h3
  exact Nat.dvd_one.mp (Int.natCast_dvd_natCast.mp (by exact_mod_cast hg1))

/-- Helper: for a positive modulus and coprime argument, `invert`
succeeds (witnessed through the Bezout coefficient). -/
theorem invert_isSome_of_coprime {a m : ℤ} (hm : 0 < m)
    (hg : Int.gcd a m = 1) : (invert a m).isSome = true := by
  unfold invert
  rw [if_neg hm.ne']
  rw [Option.isSome_map']
  rw [List.find?_isSome]
  refine ⟨(Int.gcdA a m % m).toNat, ?_, ?_⟩
  · rw [List.mem_range]
    have h0 : 0 ≤ Int.gcdA a m % m := Int.emod_nonneg _ hm.ne'
    have h1 : Int.gcdA a m % m < m := Int.emod_lt_of_pos _ hm
    have h2 : (m.natAbs : ℤ) = m := Int.natAbs_of_nonneg hm.le
    omega
  · rw [beq_iff_eq]
    have h0 : 0 ≤ Int.gcdA a m % m := Int.emod_nonneg _ hm.ne'
    rw [Int.toNat_of_nonneg h0]
    have key : a * (Int.gcdA a m % m) % m = a * Int.gcdA a m % m := by
      conv_lhs => rw [Int.mul_emod]
      conv_rhs => rw [Int.mul_emod]
      rw [Int.emod_emod_of_dvd _ dvd_rfl]
    rw [key]
    have hb : (1 : ℤ) = a * Int.gcdA a m + m * Int.gcdB a m := by
      have hab := Int.gcd_eq_gcd_ab a m
      rw [hg] at hab
      exact_mod_cast hab
    conv_rhs => rw [hb, Int.add_mul_emod_self_left]

/-- Helper: for a positive modulus, `invert` fails exactly on
non-coprime arguments. -/
theorem invert_eq_none_iff {a m : ℤ} (hm : 0 < m) :
    invert a m = none ↔ Int.gcd a m ≠ 1 := by
  constructor
  · intro h hg
    have hs := invert_isSome_of_coprime hm hg
    rw [h] at hs
    simp at hs
  · intro hg
    cases hi : invert a m with
    | none => rfl
    | some y => exact absurd (invert_some_gcd hi) hg

/-- Helper: `pow_mod` on a non-negative exponent and non-zero modulus. -/
theorem pow_mod_of_nonneg {x e m : ℤ} (he : 0 ≤ e) (hm : m ≠ 0) :
    pow_mod x e m = some (x ^ e.toNat % m) := by
  unfold pow_mod
  rw [if_neg hm, if_pos he]

/-- Helper: everything a successful `NaiveExp::build` guarantees. -/
theorem naiveExp_build_some {e p q : ℤ} {c : NaiveExp}
    (h : NaiveExp.build e p q = some c) :
    0 ≤ e ∧ 0 < p ∧ 0 < q ∧ c = { nn := (p * q) ^ 2, e := e } := by
  unfold NaiveExp.build at h
  split_ifs at h with hc
  push_neg at hc
  exact ⟨hc.1, hc.2.1, hc.2.2, (Option.some.inj h).symm⟩

/-- Helper: everything a successful `CrtExp::build` guarantees. -/
theorem crtExp_build_some {e p q : ℤ} {c : CrtExp}
    (h : CrtExp.build e p q = BuildRes.some c) :
    0 ≤ e ∧ 2 ≤ p ∧ 2 ≤ q ∧ c.pp = p ^ 2 ∧ c.qq = q ^ 2 ∧
    c.e_mod_phi_pp = Int.tmod e (p ^ 2 - p) ∧
    c.e_mod_phi_qq = Int.tmod e (q ^ 2 - q) ∧
    invert (p ^ 2) (q ^ 2) = some c.beta := by
  unfold CrtExp.build at h
  split_ifs at h with hc hz
  push_neg at hc
  push_neg at hz
  obtain ⟨he0, hp0, hq0⟩ := hc
  obtain ⟨hzp, hzq⟩ := hz
  have hp2 : 2 ≤ p := by
    rcases lt_or_ge p 2 with hlt | hge
    · exfalso
      have hone : p = 1 := by omega
      exact hzp (by rw [hone]; ring)
    · exact hge
  have hq2 : 2 ≤ q := by
    rcases lt_or_ge q 2 with hlt | hge
    · exfalso
      have hone : q = 1 := by omega
      exact hzq (by rw [hone]; ring)
    · exact hge
  cases hi : invert (p ^ 2) (q ^ 2) with
  | none =>
    rw [hi] at h
    exact absurd h (fun hx => BuildRes.noConfusion hx)
  | some b =>
    rw [hi] at h
    simp only at h
    injection h with h2
    subst h2
    refine ⟨he0, hp2, hq2, rfl, rfl, rfl, rfl, ?_⟩
    simp [hi]

/-- Claim C7: `in_mult_group(x, n)` is true iff `x ≥ 0` and
`gcd(|x|, n) = 1`; `in_mult_group_abs(x, n)` is true iff `gcd(|x|, n) = 1`
regardless of sign, and is invariant under negating `x`. -/
theorem in_mult_group_correct (x n : ℤ) :
    (in_mult_group x n = true ↔ 0 ≤ x ∧ Int.gcd |x| n = 1) ∧
    (in_mult_group_abs x n = true ↔ Int.gcd |x| n = 1) ∧
    in_mult_group_abs x n = in_mult_group_abs (-x) n := by
  have habs : Int.gcd |x| n = Int.gcd x n := by
    unfold Int.gcd
    rw [Int.natAbs_abs]
  refine ⟨?_, ?_, ?_⟩
  · simp [in_mult_group, in_mult_group_abs, habs]
  · simp [in_mult_group_abs, habs]
  · simp [in_mult_group_abs, Int.gcd]

/-- Claim C8: whenever the rejection loop of `sample_in_mult_group` returns
a value `x` (for draws delivered by `random_below`, hence in `[0, n)`), that
`x` is in `[0, n)` and `in_mult_group x n` holds. -/
theorem sample_in_mult_group_correct (draws : ℕ → ℤ) (n : ℤ) (fuel : ℕ)
    (x : ℤ) (_hn : 1 < n) (hdraws : ∀ i, 0 ≤ draws i ∧ draws i < n)
    (h : sample_in_mult_group draws n fuel = some x) :
    0 ≤ x ∧ x < n ∧ in_mult_group x n = true := by
  induction fuel generalizing draws with
  | zero => simp [sample_in_mult_group] at h
  | succ k ih =>
    unfold sample_in_mult_group at h
    by_cases hx : in_mult_group (draws 0) n
    · rw [if_pos hx] at h
      obtain rfl : draws 0 = x := Option.some.inj h
      exact ⟨(hdraws 0).1, (hdraws 0).2, hx⟩
    · rw [if_neg hx] at h
      exact ih (fun i => draws (i + 1)) (fun i => hdraws (i + 1)) h

/-- Witness for C8: `n = 4`, constant draw `3`, one iteration. -/
theorem sample_in_mult_group_correct_witness :
    0 ≤ (3 : ℤ) ∧ (3 : ℤ) < 4 ∧ in_mult_group 3 4 = true :=
  sample_in_mult_group_correct (fun _ => 3) 4 1 3 (by decide)
    (fun _ => show (0 : ℤ) ≤ 3 ∧ (3 : ℤ) < 4 by decide) (by decide)

/-- Helper: what a successful single trial guarantees about the returned
prime and the sieved candidate. -/
theorem safe_prime_trial_some {table : List ℕ} {pt : ℕ → ℕ → Bool}
    {bits amount draw p : ℕ}
    (h : safe_prime_trial table pt bits amount draw = some p) :
    p = 2 * (draw ||| 2 ^ (bits - 2) ||| 1) + 1 ∧
    pt 25 (draw ||| 2 ^ (bits - 2) ||| 1) = true ∧ pt 25 p = true := by
  simp only [safe_prime_trial] at h
  split_ifs at h with h1 h2 h3
  exact ⟨(Option.some.inj h).symm, h2, Option.some.inj h ▸ h3⟩

/-- Claim C4: every value returned by `sieve_generate_safe_primes` has the
form `p = 2q + 1` where both `q` and `p` passed the 25-round probabilistic
primality test. -/
theorem returned_safe_prime_tested (table : List ℕ) (pt : ℕ → ℕ → Bool)
    (draws : ℕ → ℕ) (bits amount fuel p : ℕ)
    (h : sieve_generate_safe_primes table pt draws bits amount fuel = some p) :
    p = 2 * ((p - 1) / 2) + 1 ∧ pt 25 ((p - 1) / 2) = true ∧
    pt 25 p = true := by
  unfold sieve_generate_safe_primes at h
  set a := min amount table.length with ha
  induction fuel generalizing draws with
  | zero => simp [sieve_loop] at h
  | succ k ih =>
    unfold sieve_loop at h
    cases htr : safe_prime_trial table pt bits a (draws 0) with
    | some pv =>
      simp only [htr, Option.some.injEq] at h
      subst h
      obtain ⟨hpeq, hq, hp⟩ := safe_prime_trial_some htr
      refine ⟨by omega, ?_, hp⟩
      have hhalf : (pv - 1) / 2 = draws 0 ||| 2 ^ (bits - 2) ||| 1 := by
        omega
      rw [hhalf]
      exact hq
    | none =>
      simp only [htr] at h
      exact ih (fun i => draws (i + 1)) h

/-- Witness for C4: empty table, all-accepting primality test, draw 0,
bits 2 returns 3 = 2·1 + 1. -/
theorem returned_safe_prime_tested_witness :
    (3 : ℕ) = 2 * ((3 - 1) / 2) + 1 ∧
    (fun _ _ => true : ℕ → ℕ → Bool) 25 ((3 - 1) / 2) = true ∧
    (fun _ _ => true : ℕ → ℕ → Bool) 25 3 = true :=
  returned_safe_prime_tested [] (fun _ _ => true) (fun _ => 0) 2 0 1 3
    (by decide)

/-- Claim C5: for `bits ≥ 2` and draws delivered by `random_bits (bits-1)`
(hence `< 2^(bits-1)`), any value returned by `generate_safe_prime` has
bit-length exactly `bits`, i.e. lies in `[2^(bits-1), 2^bits)`. -/
theorem generate_safe_prime_bit_length (table : List ℕ) (pt : ℕ → ℕ → Bool)
    (draws : ℕ → ℕ) (bits fuel p : ℕ) (hbits : 2 ≤ bits)
    (hdraws : ∀ i, draws i < 2 ^ (bits - 1))
    (h : generate_safe_prime table pt draws bits fuel = some p) :
    2 ^ (bits - 1) ≤ p ∧ p < 2 ^ bits := by
  unfold generate_safe_prime sieve_generate_safe_primes at h
  set a := min 135 table.length with ha
  have h2 : 2 ^ (bits - 1) = 2 * 2 ^ (bits - 2) := by
    have hb : bits - 1 = (bits - 2) + 1 := by omega
    rw [hb, pow_succ']
  have h3 : 2 ^ bits = 2 * 2 ^ (bits - 1) := by
    have hb : bits = (bits - 1) + 1 := by omega
    conv_lhs => rw [hb]
    rw [pow_succ']
  induction fuel generalizing draws with
  | zero => simp [sieve_loop] at h
  | succ k ih =>
    unfold sieve_loop at h
    cases htr : safe_prime_trial table pt bits a (draws 0) with
    | some pv =>
      simp only [htr, Option.some.injEq] at h
      subst h
      obtain ⟨hpeq, -, -⟩ := safe_prime_trial_some htr
      have hxlow : 2 ^ (bits - 2) ≤ draws 0 ||| 2 ^ (bits - 2) ||| 1 := by
        have ht : (draws 0 ||| 2 ^ (bits - 2) ||| 1).testBit (bits - 2)
            = true := by
          simp [Nat.testBit_or, Nat.testBit_two_pow_self]
        by_contra hcon
        push_neg at hcon
        rw [Nat.testBit_lt_two_pow hcon] at ht
        cases ht
      have hxhigh : draws 0 ||| 2 ^ (bits - 2) ||| 1 < 2 ^ (bits - 1) := by
        apply Nat.or_lt_two_pow
        · apply Nat.or_lt_two_pow
          · exact hdraws 0
          · exact Nat.pow_lt_pow_right (by norm_num) (by omega)
        · exact Nat.one_lt_two_pow (by omega)
      omega
    | none =>
      simp only [htr] at h
      exact ih (fun i => draws (i + 1)) (fun i => hdraws (i + 1)) h

/-- Witness for C5: bits 2, constant draw 0, the returned value 3 lies in
`[2, 4)`. -/
theorem generate_safe_prime_bit_length_witness :
    2 ^ (2 - 1) ≤ 3 ∧ 3 < 2 ^ 2 :=
  generate_safe_prime_bit_length [] (fun _ _ => true) (fun _ => 0) 2 1 3
    (by decide) (fun _ => show 0 < 2 ^ (2 - 1) by decide) (by decide)

/-- Claim C9: an `amount` of at least the table size is silently clamped:
the generator behaves identically to `amount = table.length`. -/
theorem sieve_amount_clamped (table : List ℕ) (pt : ℕ → ℕ → Bool)
    (draws : ℕ → ℕ) (bits fuel amount : ℕ) (h : table.length ≤ amount) :
    sieve_generate_safe_primes table pt draws bits amount fuel =
      sieve_generate_safe_primes table pt draws bits table.length fuel := by
  unfold sieve_generate_safe_primes
  rw [Nat.min_eq_right h, Nat.min_self]

/-- Witness for C9: a 2-entry table with requested amount 7 behaves exactly
like amount 2, and the run actually returns a value. -/
theorem sieve_amount_clamped_witness :
    sieve_generate_safe_primes [3, 5] (fun _ _ => true) (fun _ => 0) 4 7 2 =
      sieve_generate_safe_primes [3, 5] (fun _ _ => true) (fun _ => 0) 4 2 2 ∧
    sieve_generate_safe_primes [3, 5] (fun _ _ => true) (fun _ => 0) 4 7 2 =
      some 11 :=
  ⟨sieve_amount_clamped [3, 5] (fun _ _ => true) (fun _ => 0) 4 2 7
    (by decide), by decide⟩

/-- Counterexample for C2 as stated: at `e = 0`, `p = 1`, `q = 2` none of
the claimed `None` conditions holds and the inverse of `p²` modulo `q²`
exists, yet `CrtExp::build` neither returns a context nor `None` — it
panics (rug division by zero computing `e % (p² - p)`). -/
theorem crt_build_panic_cex :
    CrtExp.build 0 1 2 = BuildRes.crash ∧
    ¬((0 : ℤ) < 0 ∨ (1 : ℤ) ≤ 0 ∨ (2 : ℤ) ≤ 0) ∧
    invert ((1 : ℤ) ^ 2) ((2 : ℤ) ^ 2) ≠ none := by decide

/-- Claim C2 (amended): `NaiveExp::build` returns `None` exactly when
`e < 0` or `p ≤ 0` or `q ≤ 0`.  Provided `p ≠ 1` and `q ≠ 1`,
`CrtExp::build` returns `None` exactly when `e < 0`, `p ≤ 0`, `q ≤ 0`, or
`p²` and `q²` are not coprime (the modular inverse does not exist), and it
does not panic; at `p = 1` or `q = 1` (with the other conditions met) it
panics on a division by zero instead of returning. -/
theorem build_failure_characterization (e p q : ℤ) (hp1 : p ≠ 1)
    (hq1 : q ≠ 1) :
    (NaiveExp.build e p q = none ↔ e < 0 ∨ p ≤ 0 ∨ q ≤ 0) ∧
    (CrtExp.build e p q = BuildRes.none ↔
      e < 0 ∨ p ≤ 0 ∨ q ≤ 0 ∨ Int.gcd (p ^ 2) (q ^ 2) ≠ 1) ∧
    CrtExp.build e p q ≠ BuildRes.crash := by
  by_cases hc : e < 0 ∨ p ≤ 0 ∨ q ≤ 0
  · unfold NaiveExp.build CrtExp.build
    rw [if_pos hc, if_pos hc]
    refine ⟨by simp [hc], ⟨fun _ => ?_, fun _ => rfl⟩,
      fun hx => BuildRes.noConfusion hx⟩
    rcases hc with h | h | h
    · exact Or.inl h
    · exact Or.inr (Or.inl h)
    · exact Or.inr (Or.inr (Or.inl h))
  · push_neg at hc
    obtain ⟨he, hp, hq⟩ := hc
    have hp2 : 2 ≤ p := by omega
    have hq2 : 2 ≤ q := by omega
    have hzp : p ^ 2 - p ≠ 0 := by intro h0; nlinarith
    have hzq : q ^ 2 - q ≠ 0 := by intro h0; nlinarith
    have hcond : ¬(e < 0 ∨ p ≤ 0 ∨ q ≤ 0) := by push_neg; exact ⟨he, hp, hq⟩
    unfold NaiveExp.build CrtExp.build
    rw [if_neg hcond, if_neg hcond, if_neg (by push_neg; exact ⟨hzp, hzq⟩)]
    refine ⟨⟨fun hx => Option.noConfusion hx, fun hx => absurd hx hcond⟩,
      ?_, ?_⟩
    · cases hi : invert (p ^ 2) (q ^ 2) with
      | none =>
        simp only [hi]
        have hg : Int.gcd (p ^ 2) (q ^ 2) ≠ 1 :=
          (invert_eq_none_iff (by positivity)).mp hi
        exact ⟨fun _ => Or.inr (Or.inr (Or.inr hg)), fun _ => by trivial⟩
      | some b =>
        simp only [hi]
        have hg : Int.gcd (p ^ 2) (q ^ 2) = 1 := invert_some_gcd hi
        refine ⟨fun hx => BuildRes.noConfusion hx, fun hx => ?_⟩
        rcases hx with hx | hx | hx | hx
        · exact absurd hx (by omega)
        · exact absurd hx (by omega)
        · exact absurd hx (by omega)
        · exact absurd hg hx
    · cases hi : invert (p ^ 2) (q ^ 2) with
      | none =>
        simp only [hi]
        exact fun hx => BuildRes.noConfusion hx
      | some b =>
        simp only [hi]
        exact fun hx => BuildRes.noConfusion hx

/-- Witness for C2 (amended) at `e = 5`, `p = 2`, `q = 3`. -/
theorem build_failure_characterization_witness :
    (NaiveExp.build 5 2 3 = none ↔
      (5 : ℤ) < 0 ∨ (2 : ℤ) ≤ 0 ∨ (3 : ℤ) ≤ 0) ∧
    (CrtExp.build 5 2 3 = BuildRes.none ↔
      (5 : ℤ) < 0 ∨ (2 : ℤ) ≤ 0 ∨ (3 : ℤ) ≤ 0 ∨
        Int.gcd ((2 : ℤ) ^ 2) ((3 : ℤ) ^ 2) ≠ 1) ∧
    CrtExp.build 5 2 3 ≠ BuildRes.crash :=
  build_failure_characterization 5 2 3 (by decide) (by decide)

/-- Claim C3: on every context produced by `NaiveExp::build(e, p, q)` and
for every integer `x` (negative or out of range included), `exp` accepts
`x` and returns the canonical residue of `x^e` modulo `(p·q)²`. -/
theorem naive_exp_returns_pow (e p q : ℤ) (c : NaiveExp)
    (h : NaiveExp.build e p q = some c) (x : ℤ) :
    NaiveExp.exp c x = some (x ^ e.toNat % (p * q) ^ 2) := by
  obtain ⟨he, hp, hq, rfl⟩ := naiveExp_build_some h
  have hpos : (0 : ℤ) < (p * q) ^ 2 := pow_pos (mul_pos hp hq) 2
  unfold NaiveExp.exp
  exact pow_mod_of_nonneg he hpos.ne'

/-- Witness for C3 at `e = 7`, `p = 11`, `q = 13`, `x = 5`
(the spec scenario; `5^7 mod 20449 = 16778`). -/
theorem naive_exp_returns_pow_witness :
    NaiveExp.exp { nn := 20449, e := 7 } 5 = some 16778 := by
  have h := naive_exp_returns_pow 7 11 13 { nn := 20449, e := 7 }
    (by decide) 5
  exact h.trans (by decide)

/-- Claim C6: for every successfully built context the exponents handed to
the engine's modular exponentiation are non-negative (in particular the two
reduced CRT exponents), so neither `expect` branch inside `exp` can fire,
for every input `x`. -/
theorem exp_never_panics (e p q : ℤ) :
    (∀ c : NaiveExp, NaiveExp.build e p q = some c →
      ∀ x : ℤ, (NaiveExp.exp c x).isSome = true) ∧
    (∀ c : CrtExp, CrtExp.build e p q = BuildRes.some c →
      0 ≤ c.e_mod_phi_pp ∧ 0 ≤ c.e_mod_phi_qq ∧
      ∀ x : ℤ, (CrtExp.exp c x).isSome = true) := by
  constructor
  · intro c hc x
    obtain ⟨he, hp, hq, rfl⟩ := naiveExp_build_some hc
    have hpos : (0 : ℤ) < (p * q) ^ 2 := pow_pos (mul_pos hp hq) 2
    unfold NaiveExp.exp
    rw [pow_mod_of_nonneg he hpos.ne']
    rfl
  · intro c hc
    obtain ⟨he, hp, hq, hpp, hqq, hep, heq, hβ⟩ := crtExp_build_some hc
    have hppos : (0 : ℤ) < p ^ 2 := pow_pos (by omega) 2
    have hqpos : (0 : ℤ) < q ^ 2 := pow_pos (by omega) 2
    have h1 : 0 ≤ c.e_mod_phi_pp := by
      rw [hep]
      exact Int.tmod_nonneg _ he
    have h2 : 0 ≤ c.e_mod_phi_qq := by
      rw [heq]
      exact Int.tmod_nonneg _ he
    refine ⟨h1, h2, fun x => ?_⟩
    unfold CrtExp.exp
    rw [pow_mod_of_nonneg h1 (by rw [hpp]; exact hppos.ne'),
      pow_mod_of_nonneg h2 (by rw [hqq]; exact hqpos.ne')]
    rfl

/-- Witness for C6 at `e = 3`, `p = 2`, `q = 3`, `x = 5`. -/
theorem exp_never_panics_witness :
    (NaiveExp.exp { nn := 36, e := 3 } 5).isSome = true ∧
    (CrtExp.exp
      { pp := 4, qq := 9, e_mod_phi_pp := 1, e_mod_phi_qq := 3, beta := 7 }
      5).isSome = true :=
  ⟨(exp_never_panics 3 2 3).1 _ (by decide) 5,
    ((exp_never_panics 3 2 3).2 _ (by decide)).2.2 5⟩

/-- Claim C10: every value returned by `exp` of a successfully built
context (either variant) lies in the canonical range `[0, (p·q)²)`. -/
theorem exp_result_in_range (e p q : ℤ) :
    (∀ c : NaiveExp, NaiveExp.build e p q = some c →
      ∀ x y : ℤ, NaiveExp.exp c x = some y → 0 ≤ y ∧ y < (p * q) ^ 2) ∧
    (∀ c : CrtExp, CrtExp.build e p q = BuildRes.some c →
      ∀ x y : ℤ, CrtExp.exp c x = some y → 0 ≤ y ∧ y < (p * q) ^ 2) := by
  constructor
  · intro c hc x y hxy
    obtain ⟨he, hp, hq, rfl⟩ := naiveExp_build_some hc
    have hpos : (0 : ℤ) < (p * q) ^ 2 := pow_pos (mul_pos hp hq) 2
    unfold NaiveExp.exp at hxy
    rw [pow_mod_of_nonneg he hpos.ne'] at hxy
    obtain rfl := Option.some.inj hxy
    exact ⟨Int.emod_nonneg _ hpos.ne', Int.emod_lt_of_pos _ hpos⟩
  · intro c hc x y hxy
    obtain ⟨he, hp, hq, hpp, hqq, hep, heq, hβ⟩ := crtExp_build_some hc
    have hppos : (0 : ℤ) < p ^ 2 := pow_pos (by omega) 2
    have hqpos : (0 : ℤ) < q ^ 2 := pow_pos (by omega) 2
    have h1 : 0 ≤ c.e_mod_phi_pp := by
      rw [hep]
      exact Int.tmod_nonneg _ he
    have h2 : 0 ≤ c.e_mod_phi_qq := by
      rw [heq]
      exact Int.tmod_nonneg _ he
    unfold CrtExp.exp at hxy
    rw [pow_mod_of_nonneg h1 (by rw [hpp]; exact hppos.ne'),
      pow_mod_of_nonneg h2 (by rw [hqq]; exact hqpos.ne')] at hxy
    simp only [Option.some.injEq] at hxy
    subst hxy
    rw [hpp, hqq]
    set r1 := Int.tmod x (p ^ 2) ^ c.e_mod_phi_pp.toNat % p ^ 2 with hr1
    set r2 := Int.tmod x (q ^ 2) ^ c.e_mod_phi_qq.toNat % q ^ 2 with hr2
    set mid := (r2 - r1) * c.beta % q ^ 2 with hmid
    have hr1b : 0 ≤ r1 ∧ r1 < p ^ 2 :=
      ⟨Int.emod_nonneg _ hppos.ne', Int.emod_lt_of_pos _ hppos⟩
    have hmidb : 0 ≤ mid ∧ mid < q ^ 2 :=
      ⟨Int.emod_nonneg _ hqpos.ne', Int.emod_lt_of_pos _ hqpos⟩
    constructor
    · exact add_nonneg (mul_nonneg hmidb.1 hppos.le) hr1b.1
    · have hub : mid * p ^ 2 ≤ (q ^ 2 - 1) * p ^ 2 :=
        mul_le_mul_of_nonneg_right (by omega) hppos.le
      rw [mul_pow]
      nlinarith

/-- Witness for C10 at `e = 7`, `p = 3`, `q = 5`, `x = 3`: the naive value
`162` and the CRT value `12` both lie in `[0, 225)`. -/
theorem exp_result_in_range_witness :
    (0 ≤ (162 : ℤ) ∧ (162 : ℤ) < ((3 : ℤ) * 5) ^ 2) ∧
    (0 ≤ (12 : ℤ) ∧ (12 : ℤ) < ((3 : ℤ) * 5) ^ 2) :=
  ⟨(exp_result_in_range 7 3 5).1 { nn := 225, e := 7 } (by decide) 3 162
      (by decide),
    (exp_result_in_range 7 3 5).2
      { pp := 9, qq := 25, e_mod_phi_pp := 1, e_mod_phi_qq := 7, beta := 14 }
      (by decide) 3 12 (by decide)⟩

/-- Helper: truncated remainder is congruent to the dividend. -/
theorem tmod_modEq (a m : ℤ) : Int.tmod a m ≡ a [ZMOD m] := by
  rw [Int.modEq_iff_dvd]
  have hsum := Int.tmod_add_tdiv a m
  exact ⟨a.tdiv m, by linarith⟩

/-- Helper: Fermat–Euler for a squared prime, with the exponent written as
the integer `p² - p` that `CrtExp::build` reduces by. -/
theorem euler_prime_sq (p : ℕ) (hp : p.Prime) (x : ℤ)
    (hx : Int.gcd x (p : ℤ) = 1) :
    x ^ (((p : ℤ) ^ 2 - (p : ℤ)).toNat) ≡ 1 [ZMOD ((p : ℤ) ^ 2)] := by
  have hp1 : 1 ≤ p := hp.one_lt.le
  have hcop : Nat.Coprime x.natAbs p := by
    have hg : Int.gcd x (p : ℤ) = Nat.gcd x.natAbs p := by
      unfold Int.gcd
      simp
    rwa [hg] at hx
  have hcop2 : Nat.Coprime x.natAbs (p ^ 2) := Nat.Coprime.pow_right 2 hcop
  haveI : NeZero (p ^ 2) := ⟨pow_ne_zero 2 (by omega)⟩
  have hunit : IsUnit ((x : ℤ) : ZMod (p ^ 2)) := by
    rcases Int.natAbs_eq x with hxe | hxe
    · rw [hxe, Int.cast_natCast]
      exact (ZMod.isUnit_iff_coprime _ _).mpr hcop2
    · rw [hxe, Int.cast_neg, Int.cast_natCast]
      exact ((ZMod.isUnit_iff_coprime _ _).mpr hcop2).neg
  have htot := ZMod.pow_totient hunit.unit
  have hcast : ((x : ℤ) : ZMod (p ^ 2)) ^ (p ^ 2).totient = 1 := by
    rw [← hunit.unit_spec, ← Units.val_pow_eq_pow_val, htot, Units.val_one]
  have hname : (p ^ 2).totient = p * (p - 1) := by
    rw [Nat.totient_prime_pow hp (by norm_num)]
    norm_num
  have hexp : (((p : ℤ) ^ 2 - (p : ℤ)).toNat) = p * (p - 1) := by
    have hcast2 : ((p * (p - 1) : ℕ) : ℤ) = (p : ℤ) ^ 2 - (p : ℤ) := by
      push_cast [Nat.cast_sub hp1]
      ring
    rw [← hcast2]
    exact Int.toNat_natCast _
  rw [hexp]
  have hz : ((x ^ (p * (p - 1)) : ℤ) : ZMod (p ^ 2)) = ((1 : ℤ) : ZMod (p ^ 2)) := by
    push_cast
    rw [← hname]
    exact hcast
  have hmod := (ZMod.intCast_eq_intCast_iff _ _ _).mp hz
  have hcast3 : (((p ^ 2 : ℕ) : ℤ)) = (p : ℤ) ^ 2 := by push_cast; ring
  rwa [hcast3] at hmod

/-- Helper: reducing a non-negative exponent modulo `t` does not change
the power modulo `M` once `x^t ≡ 1 (mod M)`. -/
theorem pow_tmod_reduce {M t e x : ℤ} (ht : 0 < t) (he : 0 ≤ e)
    (h1 : x ^ t.toNat ≡ 1 [ZMOD M]) :
    x ^ e.toNat ≡ x ^ (Int.tmod e t).toNat [ZMOD M] := by
  have hrw : Int.tmod e t = e % t := Int.tmod_eq_emod he ht.le
  have h0 : 0 ≤ e % t := Int.emod_nonneg e ht.ne'
  have hd : 0 ≤ e / t := Int.ediv_nonneg he ht.le
  have hsplit : e.toNat = t.toNat * (e / t).toNat + (e % t).toNat := by
    have hdiv := Int.emod_add_ediv e t
    have hcast : ((t.toNat * (e / t).toNat + (e % t).toNat : ℕ) : ℤ)
        = ((e.toNat : ℕ) : ℤ) := by
      push_cast [Int.toNat_of_nonneg he, Int.toNat_of_nonneg h0,
        Int.toNat_of_nonneg hd, Int.toNat_of_nonneg ht.le]
      linarith
    exact (Nat.cast_inj.mp hcast).symm
  rw [hrw, hsplit, pow_add, pow_mul]
  calc (x ^ t.toNat) ^ (e / t).toNat * x ^ (e % t).toNat
      ≡ 1 ^ (e / t).toNat * x ^ (e % t).toNat [ZMOD M] :=
        Int.ModEq.mul_right _ (Int.ModEq.pow _ h1)
    _ = x ^ (e % t).toNat := by rw [one_pow, one_mul]

/-- Helper: two values of `[0, pp·qq)` congruent modulo coprime `pp` and
`qq` are equal. -/
theorem crt_unique {pp qq v w : ℤ} (hv0 : 0 ≤ v) (hv1 : v < pp * qq)
    (hw0 : 0 ≤ w) (hw1 : w < pp * qq)
    (hco : Nat.Coprime pp.natAbs qq.natAbs)
    (h1 : v ≡ w [ZMOD pp]) (h2 : v ≡ w [ZMOD qq]) : v = w := by
  have hmul : v ≡ w [ZMOD pp * qq] :=
    (Int.modEq_and_modEq_iff_modEq_mul hco).mp ⟨h1, h2⟩
  have heq := hmul.eq
  rwa [Int.emod_eq_of_lt hv0 hv1, Int.emod_eq_of_lt hw0 hw1] at heq

/-- Helper: the value `CrtExp::exp` computes, written out, once both
reduced exponents are non-negative and both moduli non-zero. -/
theorem CrtExp.exp_eq (ppv qqv epv eqv bv x : ℤ) (h1 : 0 ≤ epv)
    (h2 : 0 ≤ eqv) (hpp : ppv ≠ 0) (hqq : qqv ≠ 0) :
    CrtExp.exp
      { pp := ppv, qq := qqv, e_mod_phi_pp := epv, e_mod_phi_qq := eqv,
        beta := bv } x
      = some ((Int.tmod x qqv ^ eqv.toNat % qqv -
          Int.tmod x ppv ^ epv.toNat % ppv) * bv % qqv * ppv +
          Int.tmod x ppv ^ epv.toNat % ppv) := by
  simp only [CrtExp.exp]
  rw [pow_mod_of_nonneg h1 hpp, pow_mod_of_nonneg h2 hqq]

set_option maxHeartbeats 2000000 in
/-- Counterexample for C1 as stated: at `e = 7`, `p = 3`, `q = 5` all the
claimed side conditions hold (`e ≥ 0`, `p, q > 0`, `p ≠ q`,
`gcd(p², q²) = 1`) and both builds succeed, yet on `x = 3` the naive
context returns `3^7 mod 225 = 162` while the CRT context returns `12`. -/
theorem naive_crt_differ_cex :
    ((0 : ℤ) ≤ 7 ∧ (0 : ℤ) < 3 ∧ (0 : ℤ) < 5 ∧ (3 : ℤ) ≠ 5 ∧
      Int.gcd ((3 : ℤ) ^ 2) ((5 : ℤ) ^ 2) = 1) ∧
    naive_build_exp 7 3 5 3 = some 162 ∧
    crt_build_exp 7 3 5 3 = some 12 ∧
    direct_exp 3 7 15 = 162 := by decide

/-- Claim C1 (amended): for distinct primes `p`, `q`, every exponent
`e ≥ 0` and every base `x` coprime to `p·q`, the naive and the CRT
pipelines (build then exp) both return exactly the directly defined
`x^e mod (p·q)²`.  (Without primality of `p`, `q` and coprimality of `x`
the equivalence fails, see the counterexample.) -/
theorem naive_crt_equivalent (p q : ℕ) (hp : Nat.Prime p)
    (hq : Nat.Prime q) (hpq : p ≠ q) (e x : ℤ) (he : 0 ≤ e)
    (hx : Int.gcd x ((p : ℤ) * (q : ℤ)) = 1) :
    naive_build_exp e p q x
      = some (direct_exp x e ((p : ℤ) * (q : ℤ))) ∧
    crt_build_exp e p q x
      = some (direct_exp x e ((p : ℤ) * (q : ℤ))) := by
  have hp2 : (2 : ℤ) ≤ (p : ℤ) := by exact_mod_cast hp.two_le
  have hq2 : (2 : ℤ) ≤ (q : ℤ) := by exact_mod_cast hq.two_le
  have hP0 : (0 : ℤ) < (p : ℤ) := by omega
  have hQ0 : (0 : ℤ) < (q : ℤ) := by omega
  have hppos : (0 : ℤ) < (p : ℤ) ^ 2 := pow_pos hP0 2
  have hqpos : (0 : ℤ) < (q : ℤ) ^ 2 := pow_pos hQ0 2
  have hN0 : (0 : ℤ) < ((p : ℤ) * (q : ℤ)) ^ 2 := pow_pos (mul_pos hP0 hQ0) 2
  have hcond : ¬(e < 0 ∨ (p : ℤ) ≤ 0 ∨ (q : ℤ) ≤ 0) := by
    push_neg
    exact ⟨he, hP0, hQ0⟩
  -- coprimality of the base with each factor
  have hxabs : Nat.Coprime x.natAbs (p * q) := by
    have hg : Int.gcd x ((p : ℤ) * (q : ℤ)) = Nat.gcd x.natAbs (p * q) := by
      unfold Int.gcd
      rw [Int.natAbs_mul]
      simp
    rwa [hg] at hx
  have hgx_p : Int.gcd x (p : ℤ) = 1 := by
    have hc := Nat.Coprime.coprime_dvd_right (Dvd.intro q rfl) hxabs
    unfold Int.gcd
    simpa using hc
  have hgx_q : Int.gcd x (q : ℤ) = 1 := by
    have hc := Nat.Coprime.coprime_dvd_right (Dvd.intro_left p rfl) hxabs
    unfold Int.gcd
    simpa using hc
  -- the naive pipeline returns the direct value
  have hnaive : naive_build_exp e p q x
      = some (direct_exp x e ((p : ℤ) * (q : ℤ))) := by
    unfold naive_build_exp NaiveExp.build
    rw [if_neg hcond]
    show NaiveExp.exp _ x = _
    unfold NaiveExp.exp
    exact pow_mod_of_nonneg he hN0.ne'
  refine ⟨hnaive, ?_⟩
  -- the CRT build succeeds
  have hgcd_sq : Int.gcd ((p : ℤ) ^ 2) ((q : ℤ) ^ 2) = 1 := by
    have hco : Nat.Coprime p q := (Nat.coprime_primes hp hq).mpr hpq
    have hco2 : Nat.Coprime (p ^ 2) (q ^ 2) := Nat.Coprime.pow 2 2 hco
    unfold Int.gcd
    rw [Int.natAbs_pow, Int.natAbs_pow]
    simpa using hco2
  obtain ⟨b, hb⟩ : ∃ b, invert ((p : ℤ) ^ 2) ((q : ℤ) ^ 2) = some b :=
    Option.isSome_iff_exists.mp (invert_isSome_of_coprime hqpos hgcd_sq)
  obtain ⟨-, hb0, hblt, hbinv⟩ := invert_some_spec hb
  have hzpq : ¬((p : ℤ) ^ 2 - (p : ℤ) = 0 ∨ (q : ℤ) ^ 2 - (q : ℤ) = 0) := by
    push_neg
    refine ⟨fun h0 => ?_, fun h0 => ?_⟩ <;> nlinarith
  have hbuild : CrtExp.build e p q = BuildRes.some
      { pp := (p : ℤ) ^ 2, qq := (q : ℤ) ^ 2,
        e_mod_phi_pp := Int.tmod e ((p : ℤ) ^ 2 - (p : ℤ)),
        e_mod_phi_qq := Int.tmod e ((q : ℤ) ^ 2 - (q : ℤ)), beta := b } := by
    unfold CrtExp.build
    rw [if_neg hcond, if_neg hzpq, hb]
  have htp0 : (0 : ℤ) < (p : ℤ) ^ 2 - (p : ℤ) := by nlinarith
  have htq0 : (0 : ℤ) < (q : ℤ) ^ 2 - (q : ℤ) := by nlinarith
  have hep0 : 0 ≤ Int.tmod e ((p : ℤ) ^ 2 - (p : ℤ)) := Int.tmod_nonneg _ he
  have heq0 : 0 ≤ Int.tmod e ((q : ℤ) ^ 2 - (q : ℤ)) := Int.tmod_nonneg _ he
  -- the CRT pipeline value, written out
  have hcrt : crt_build_exp e p q x = some
      ((Int.tmod x ((q : ℤ) ^ 2) ^
          (Int.tmod e ((q : ℤ) ^ 2 - (q : ℤ))).toNat % (q : ℤ) ^ 2 -
        Int.tmod x ((p : ℤ) ^ 2) ^
          (Int.tmod e ((p : ℤ) ^ 2 - (p : ℤ))).toNat % (p : ℤ) ^ 2) * b
          % (q : ℤ) ^ 2 * (p : ℤ) ^ 2 +
        Int.tmod x ((p : ℤ) ^ 2) ^
          (Int.tmod e ((p : ℤ) ^ 2 - (p : ℤ))).toNat % (p : ℤ) ^ 2) := by
    unfold crt_build_exp
    rw [hbuild]
    exact CrtExp.exp_eq _ _ _ _ _ x hep0 heq0 hppos.ne' hqpos.ne'
  set r1 : ℤ := Int.tmod x ((p : ℤ) ^ 2) ^
      (Int.tmod e ((p : ℤ) ^ 2 - (p : ℤ))).toNat % (p : ℤ) ^ 2 with hr1
  set r2 : ℤ := Int.tmod x ((q : ℤ) ^ 2) ^
      (Int.tmod e ((q : ℤ) ^ 2 - (q : ℤ))).toNat % (q : ℤ) ^ 2 with hr2
  set v : ℤ := (r2 - r1) * b % (q : ℤ) ^ 2 * (p : ℤ) ^ 2 + r1 with hv
  -- congruences of the CRT value with x^e modulo each prime square
  have hr1X : r1 ≡ x ^ e.toNat [ZMOD (p : ℤ) ^ 2] := by
    calc r1 ≡ Int.tmod x ((p : ℤ) ^ 2) ^
          (Int.tmod e ((p : ℤ) ^ 2 - (p : ℤ))).toNat [ZMOD (p : ℤ) ^ 2] :=
        Int.mod_modEq _ _
      _ ≡ x ^ (Int.tmod e ((p : ℤ) ^ 2 - (p : ℤ))).toNat
          [ZMOD (p : ℤ) ^ 2] := Int.ModEq.pow _ (tmod_modEq x _)
      _ ≡ x ^ e.toNat [ZMOD (p : ℤ) ^ 2] :=
        (pow_tmod_reduce htp0 he (euler_prime_sq p hp x hgx_p)).symm
  have hr2X : r2 ≡ x ^ e.toNat [ZMOD (q : ℤ) ^ 2] := by
    calc r2 ≡ Int.tmod x ((q : ℤ) ^ 2) ^
          (Int.tmod e ((q : ℤ) ^ 2 - (q : ℤ))).toNat [ZMOD (q : ℤ) ^ 2] :=
        Int.mod_modEq _ _
      _ ≡ x ^ (Int.tmod e ((q : ℤ) ^ 2 - (q : ℤ))).toNat
          [ZMOD (q : ℤ) ^ 2] := Int.ModEq.pow _ (tmod_modEq x _)
      _ ≡ x ^ e.toNat [ZMOD (q : ℤ) ^ 2] :=
        (pow_tmod_reduce htq0 he (euler_prime_sq q hq x hgx_q)).symm
  have hr1b : 0 ≤ r1 ∧ r1 < (p : ℤ) ^ 2 :=
    ⟨Int.emod_nonneg _ hppos.ne', Int.emod_lt_of_pos _ hppos⟩
  have hmidb : 0 ≤ (r2 - r1) * b % (q : ℤ) ^ 2 ∧
      (r2 - r1) * b % (q : ℤ) ^ 2 < (q : ℤ) ^ 2 :=
    ⟨Int.emod_nonneg _ hqpos.ne', Int.emod_lt_of_pos _ hqpos⟩
  have hvP : v ≡ x ^ e.toNat [ZMOD (p : ℤ) ^ 2] := by
    have hvr : v % (p : ℤ) ^ 2 = r1 % (p : ℤ) ^ 2 := by
      rw [hv, add_comm, Int.add_mul_emod_self]
    exact (show v ≡ r1 [ZMOD (p : ℤ) ^ 2] from hvr).trans hr1X
  have hβinv : (p : ℤ) ^ 2 * b ≡ 1 [ZMOD (q : ℤ) ^ 2] := hbinv
  have hvQ : v ≡ x ^ e.toNat [ZMOD (q : ℤ) ^ 2] := by
    have h1 : v ≡ (r2 - r1) * b * (p : ℤ) ^ 2 + r1 [ZMOD (q : ℤ) ^ 2] :=
      Int.ModEq.add_right r1 (Int.ModEq.mul_right _ (Int.mod_modEq _ _))
    have h2 : (r2 - r1) * b * (p : ℤ) ^ 2 + r1
        ≡ (r2 - r1) * 1 + r1 [ZMOD (q : ℤ) ^ 2] := by
      have hm := Int.ModEq.mul_left (r2 - r1) hβinv
      calc (r2 - r1) * b * (p : ℤ) ^ 2 + r1
          = (r2 - r1) * ((p : ℤ) ^ 2 * b) + r1 := by ring
        _ ≡ (r2 - r1) * 1 + r1 [ZMOD (q : ℤ) ^ 2] :=
          Int.ModEq.add_right r1 hm
    refine h1.trans (h2.trans ?_)
    have h3 : (r2 - r1) * 1 + r1 = r2 := by ring
    rw [h3]
    exact hr2X
  -- the direct value satisfies the same congruences and bounds
  have hwP : direct_exp x e ((p : ℤ) * (q : ℤ))
      ≡ x ^ e.toNat [ZMOD (p : ℤ) ^ 2] := by
    have hdvd : (p : ℤ) ^ 2 ∣ ((p : ℤ) * (q : ℤ)) ^ 2 := by
      rw [mul_pow]
      exact dvd_mul_right _ _
    exact Int.ModEq.of_dvd hdvd (Int.mod_modEq _ _)
  have hwQ : direct_exp x e ((p : ℤ) * (q : ℤ))
      ≡ x ^ e.toNat [ZMOD (q : ℤ) ^ 2] := by
    have hdvd : (q : ℤ) ^ 2 ∣ ((p : ℤ) * (q : ℤ)) ^ 2 := by
      rw [mul_pow]
      exact dvd_mul_left _ _
    exact Int.ModEq.of_dvd hdvd (Int.mod_modEq _ _)
  have hwb : 0 ≤ direct_exp x e ((p : ℤ) * (q : ℤ)) ∧
      direct_exp x e ((p : ℤ) * (q : ℤ)) < (p : ℤ) ^ 2 * (q : ℤ) ^ 2 := by
    unfold direct_exp
    rw [← mul_pow]
    exact ⟨Int.emod_nonneg _ hN0.ne', Int.emod_lt_of_pos _ hN0⟩
  have hvb : 0 ≤ v ∧ v < (p : ℤ) ^ 2 * (q : ℤ) ^ 2 := by
    constructor
    · exact add_nonneg (mul_nonneg hmidb.1 hppos.le) hr1b.1
    · have hub : (r2 - r1) * b % (q : ℤ) ^ 2 * (p : ℤ) ^ 2
          ≤ ((q : ℤ) ^ 2 - 1) * (p : ℤ) ^ 2 :=
        mul_le_mul_of_nonneg_right (by omega) hppos.le
      have hr1ub : r1 ≤ (p : ℤ) ^ 2 - 1 := by omega
      have hsum : v ≤ ((q : ℤ) ^ 2 - 1) * (p : ℤ) ^ 2 + ((p : ℤ) ^ 2 - 1) :=
        add_le_add hub hr1ub
      have hid : ((q : ℤ) ^ 2 - 1) * (p : ℤ) ^ 2 + ((p : ℤ) ^ 2 - 1)
          = (p : ℤ) ^ 2 * (q : ℤ) ^ 2 - 1 := by ring
      linarith [hsum, hid]
  -- conclude by uniqueness of the CRT representative
  have hveq : v = direct_exp x e ((p : ℤ) * (q : ℤ)) := by
    apply crt_unique hvb.1 hvb.2 hwb.1 hwb.2 hgcd_sq
      (hvP.trans hwP.symm) (hvQ.trans hwQ.symm)
  rw [hveq] at hcrt
  exact hcrt

/-- Witness for C1 (amended) at `p = 3`, `q = 5`, `e = 7`, `x = 2`: both
pipelines return `2^7 mod 225 = 128`. -/
theorem naive_crt_equivalent_witness :
    naive_build_exp 7 3 5 2 = some 128 ∧
    crt_build_exp 7 3 5 2 = some 128 := by
  have h := naive_crt_equivalent 3 5 (by norm_num) (by norm_num)
    (by decide) 7 2 (by decide) (by decide)
  exact ⟨h.1.trans (by decide), h.2.trans (by decide)⟩

end FastPaillier
